import Mathlib

/-!
# Verification of the AlphaPackTokenizer (src/alphapack_tokenizer.py)

A shallow embedding of the word-level tokenizer in
`src/alphapack_tokenizer.py`.  Python dictionaries are embedded as
insertion-ordered association lists (`List (κ × ν)`); dictionary update
`d[k] = v` keeps the position of an existing key and appends otherwise,
exactly as CPython does.  Python's built-in `hash` is runtime-seeded, so it
is embedded as an explicit function field `hashFn : String → Int` of the
tokenizer state; Python's `%` with a positive right operand agrees with
`Int.emod`.  File I/O is abstracted: a load source is `Option VocabFile`
(`none` = the open/`json.load` step fails), and `save_vocab` produces the
`VocabFile` value that would be written.

Note on line 45 of the source: the byte sequence of the `noktalar` string
literal is `'.,!?;:@#$%&*+-=/()[]\x7b\x7d"\\\x27\x60~<>|\\^'` in which the
`\\` escape yields a backslash and the following quote terminates the
string, leaving a stray backtick — a Python `SyntaxError`, so the module
does not import as committed.  The characters visibly listed in the literal
(deduplicated; `in`-membership is insensitive to the duplicate backslash)
are the 30 characters embedded in `noktalar` below, which is also exactly
the delimiter set the spec lists.
-/

/-- Lookup in an insertion-ordered association list: Python `d.get(k)`,
`d[k]`, `k in d`. -/
def dictGet? {κ ν : Type} [DecidableEq κ] (m : List (κ × ν)) (k : κ) : Option ν :=
  (m.find? (fun p => p.1 = k)).map (fun p => p.2)

/-- Update in an insertion-ordered association list: Python `d[k] = v`.
If `k` is present its value is replaced in place, otherwise `(k, v)` is
appended at the end (CPython insertion order; a Python dict never holds a
key twice, so replacing the first occurrence is exact). -/
def dictInsert {κ ν : Type} [DecidableEq κ] : List (κ × ν) → κ → ν → List (κ × ν)
  | [], k, v => [(k, v)]
  | p :: rest, k, v => if p.1 = k then (k, v) :: rest else p :: dictInsert rest k v

/-- The five special tokens of `AlphaPackTokenizer.__init__`
(`self.special_tokens`), in source order. -/
def special_tokens : List (String × Nat) :=
  [("<PAD>", 0), ("<EOS>", 1), ("<UNK>", 2), ("<SEP>", 3), ("<BOS>", 4)]

def pad_token_id : Nat := 0
def eos_token_id : Nat := 1
def unk_token_id : Nat := 2
def sep_token_id : Nat := 3
def bos_token_id : Nat := 4

/-- The punctuation/symbol delimiter set `self.noktalar` (source line 45),
with the literal read as the characters it visibly lists (see the header
note on the broken escaping of that line).  `\x7b`/`\x7d` are the braces,
`\x27` the apostrophe, `\x60` the backtick. -/
def noktalar : List Char :=
  (".,!?;:@#$%&*+-=/()[]\x7b\x7d\"\\\x27\x60~<>|^").toList

/-- Mutable state of an `AlphaPackTokenizer` instance: the two vocabulary
maps, the capacity ceiling, the sequential-assignment counter, and the
(process-wide, seed-dependent) string hash function. -/
structure AlphaPackTokenizer where
  word_to_id : List (String × Nat)
  id_to_word : List (Nat × String)
  vocab_size : Nat
  next_id : Nat
  hashFn : String → Int

/-- Constructor `AlphaPackTokenizer.__init__(vocab_size)` with no vocab file loaded:
both maps hold exactly the special tokens and `next_id = 5`. -/
def initTok (vocab_size : Nat) (hashFn : String → Int) : AlphaPackTokenizer :=
  { word_to_id := special_tokens
    id_to_word := special_tokens.map (fun p => (p.2, p.1))
    vocab_size := vocab_size
    next_id := special_tokens.length
    hashFn := hashFn }

/-- Python `text.strip()` (leading/trailing whitespace removed). -/
def pyStrip (cs : List Char) : List Char :=
  ((cs.dropWhile Char.isWhitespace).reverse.dropWhile Char.isWhitespace).reverse

/-- The character scan of `AlphaPackTokenizer._tokenize`: `cur` is the
`current` word buffer; a space flushes the buffer, a `noktalar` character
flushes the buffer and is emitted as its own one-character token, any other
character is appended to the buffer; the final buffer is flushed. -/
def tokenizeLoop : List Char → List Char → List String
  | [], cur => if cur = [] then [] else [String.mk cur]
  | c :: rest, cur =>
    if c = ' ' then
      (if cur = [] then [] else [String.mk cur]) ++ tokenizeLoop rest []
    else if c ∈ noktalar then
      (if cur = [] then [] else [String.mk cur]) ++ [String.mk [c]] ++ tokenizeLoop rest []
    else
      tokenizeLoop rest (cur ++ [c])

/-- Method `AlphaPackTokenizer._tokenize(text)`: lowercase, strip, then scan.
(`Char.toLower` embeds `str.lower()`; it agrees with Python on ASCII.) -/
def tokenize (text : String) : List String :=
  tokenizeLoop (pyStrip (text.toList.map Char.toLower)) []

/-- Method `AlphaPackTokenizer._word_to_id(word)`: return the existing ID, else
assign `next_id` while `next_id < vocab_size`, else fall back to
`hash(word) % (vocab_size - len(special_tokens)) + len(special_tokens)`,
inserting the new pair into both maps.  Returns the ID and the updated
state. -/
def wordToId (s : AlphaPackTokenizer) (w : String) : Nat × AlphaPackTokenizer :=
  match dictGet? s.word_to_id w with
  | some tid => (tid, s)
  | none =>
    let (tid, s1) :=
      if s.next_id < s.vocab_size then
        (s.next_id, { s with next_id := s.next_id + 1 })
      else
        ((((s.hashFn w) % ((s.vocab_size : Int) - 5)).toNat + 5), s)
    (tid, { s1 with word_to_id := dictInsert s1.word_to_id w tid
                    id_to_word := dictInsert s1.id_to_word tid w })

/-- The list comprehension `[self._word_to_id(w) for w in words]` of
`encode`: a left-to-right stateful map. -/
def encodeIds : AlphaPackTokenizer → List String → List Nat × AlphaPackTokenizer
  | s, [] => ([], s)
  | s, w :: ws =>
    let (i, s1) := wordToId s w
    let (is, s2) := encodeIds s1 ws
    (i :: is, s2)

/-- Method `AlphaPackTokenizer.encode(text, max_length, padding)` (the plain-list
return; the `return_tensors='pt'` branch is peripheral torch interop and
the result dictionary `{'input_ids': ids}` is embedded as the `ids` list
itself).  `padding` carries the Python string argument; the source only
tests it against the string spelled m-a-x-underscore-l-e-n-g-t-h, the
default. -/
def encode (s : AlphaPackTokenizer) (text : String) (max_length : Nat)
    (padding : Option String) : List Nat × AlphaPackTokenizer :=
  let (ids0, s1) := encodeIds s (tokenize text)
  let ids := ids0 ++ [eos_token_id]
  let ids :=
    if max_length < ids.length then ids.take max_length
    else if padding = some ("max_length") then
      ids ++ List.replicate (max_length - ids.length) pad_token_id
    else ids
  (ids, s1)

/-- The word accumulation loop of `AlphaPackTokenizer.decode`: stop at the
first `EOS` (ID 1); skip `{0, 2, 3, 4}` when `skip_special_tokens`;
otherwise `id_to_word.get(tid, f"[\x7btid\x7d]")`.  IDs are `Int` because a
caller may pass arbitrary Python integers. -/
def decodeWords (s : AlphaPackTokenizer) (skip_special_tokens : Bool) :
    List Int → List String
  | [] => []
  | tid :: rest =>
    if tid = (eos_token_id : Nat) then []
    else if skip_special_tokens = true ∧ tid ∈ ([0, 2, 3, 4] : List Int) then
      decodeWords s skip_special_tokens rest
    else
      (match (s.id_to_word.find? (fun p => (p.1 : Int) = tid)).map (fun p => p.2) with
       | some w => w
       | none => "[" ++ toString tid ++ "]") :: decodeWords s skip_special_tokens rest

/-- Method `AlphaPackTokenizer.decode(ids, skip_special_tokens)` on a flat ID
list (the tensor/nested-list unwrapping preamble is front-end input
normalization): `' '.join(words)`. -/
def decode (s : AlphaPackTokenizer) (ids : List Int) (skip_special_tokens : Bool) :
    String :=
  " ".intercalate (decodeWords s skip_special_tokens ids)

/-- Python `str(k)` on a natural number: the list of decimal digit
characters, most significant first, no leading zeros. -/
def natToChars (n : Nat) : List Char :=
  if h : n < 10 then [Nat.digitChar n]
  else
    have : n / 10 < n := Nat.div_lt_self (by omega) (by omega)
    natToChars (n / 10) ++ [Nat.digitChar (n % 10)]

/-- Python `str(k)` as a `String`. -/
def strOfNat (n : Nat) : String := String.mk (natToChars n)

/-- Decimal value of one character, `none` on a non-digit. -/
def digitVal? (c : Char) : Option Nat :=
  if c.isDigit then some (c.toNat - 48) else none

/-- Left-to-right accumulation of a decimal numeral; `none` as soon as a
non-digit character appears. -/
def parseNatCore? : List Char → Nat → Option Nat
  | [], acc => some acc
  | c :: rest, acc =>
    match digitVal? c with
    | none => none
    | some d => parseNatCore? rest (acc * 10 + d)

/-- Python `int(k)` on the key strings of a persisted snapshot: succeeds on
a non-empty all-digit string with its decimal value, fails otherwise
(`int` also tolerates signs and surrounding whitespace, which `str(k)` of a
natural number never produces, so the two embeddings agree on every key
`save_vocab` writes and on the non-numeric failure case). -/
def parseNat? (s : String) : Option Nat :=
  match s.toList with
  | [] => none
  | cs => parseNatCore? cs 0

/-- The parsed JSON value of a vocabulary snapshot file.  Each field is
`Option`al: `none` embeds the key being absent from the JSON object
(`data['word_to_id']` raises `KeyError`; `data.get(...)` takes its
default). -/
structure VocabFile where
  word_to_id : Option (List (String × Nat))
  id_to_word : Option (List (String × String))
  vocab_size : Option Nat
  next_id : Option Nat

/-- Method `AlphaPackTokenizer.save_vocab(path)`: the snapshot value written to
the file — `word_to_id` as is, `id_to_word` with keys passed through
`str`, and the two counters. -/
def save_vocab (s : AlphaPackTokenizer) : VocabFile :=
  { word_to_id := some s.word_to_id
    id_to_word := some (s.id_to_word.map (fun p => (strOfNat p.1, p.2)))
    vocab_size := some s.vocab_size
    next_id := some s.next_id }

/-- The dict comprehension `{int(k): v for k, v in data['id_to_word'].items()}`:
built left to right, `none` as soon as one `int(k)` raises — in that case
the comprehension's value is discarded before any assignment. -/
def parseIdMap : List (String × String) → Option (List (Nat × String))
  | [] => some []
  | (k, v) :: rest =>
    match parseNat? k with
    | none => none
    | some n => (parseIdMap rest).map (fun m => (n, v) :: m)

/-- Where a failing `load_vocab` raised. -/
inductive LoadError where
  /-- `open`/`json.load` failed: target missing, unreadable or unparsable
  (raised before any field assignment). -/
  | readError : LoadError
  /-- `data['word_to_id']` raised `KeyError` (before any assignment). -/
  | missingWordToId : LoadError
  /-- `data['id_to_word']` raised `KeyError` — after `self.word_to_id` was
  already overwritten. -/
  | missingIdToWord : LoadError
  /-- some `int(k)` in the key-conversion comprehension raised
  `ValueError` — after `self.word_to_id` was already overwritten, before
  `self.id_to_word` was assigned. -/
  | badIdKey : LoadError
deriving DecidableEq

/-- Method `AlphaPackTokenizer.load_vocab(path)`.  The statements are executed in
source order and `self` is mutated field by field, so the returned state
reflects every assignment made before the raise; `src = none` embeds a
failing `open`/`json.load`.  On success `vocab_size` and `next_id` fall
back to `len(self.word_to_id)` — the length of the freshly assigned map. -/
def load_vocab (src : Option VocabFile) (s : AlphaPackTokenizer) :
    AlphaPackTokenizer × Option LoadError :=
  match src with
  | none => (s, some LoadError.readError)
  | some f =>
    match f.word_to_id with
    | none => (s, some LoadError.missingWordToId)
    | some w =>
      let s1 := { s with word_to_id := w }
      match f.id_to_word with
      | none => (s1, some LoadError.missingIdToWord)
      | some m =>
        match parseIdMap m with
        | none => (s1, some LoadError.badIdKey)
        | some m2 =>
          ({ s1 with id_to_word := m2
                     vocab_size := f.vocab_size.getD w.length
                     next_id := f.next_id.getD w.length }, none)

/-- The state after a sequence of `_word_to_id` look-ups, in order.  Every
state change `encode` performs goes through `_word_to_id` on the segmented
words, so the states reachable from construction by arbitrary
`encode`/look-up calls are exactly the `applyWords (initTok _ _) ws`. -/
def applyWords (s : AlphaPackTokenizer) (ws : List String) : AlphaPackTokenizer :=
  ws.foldl (fun s w => (wordToId s w).2) s

/-! ## Association-list dictionary lemmas -/

theorem dictGet?_insert_self {κ ν : Type} [DecidableEq κ] (m : List (κ × ν)) (k : κ)
    (v : ν) : dictGet? (dictInsert m k v) k = some v := by
  induction m with
  | nil => simp [dictGet?, dictInsert]
  | cons p rest ih =>
    by_cases h : p.1 = k
    · simp [dictGet?, dictInsert, h]
    · simpa [dictGet?, dictInsert, h, List.find?] using ih

theorem dictGet?_insert_ne {κ ν : Type} [DecidableEq κ] (m : List (κ × ν)) (k k' : κ)
    (v : ν) (h : k' ≠ k) : dictGet? (dictInsert m k v) k' = dictGet? m k' := by
  induction m with
  | nil => simp [dictGet?, dictInsert, List.find?, Ne.symm h]
  | cons p rest ih =>
    by_cases hp : p.1 = k
    · simp [dictGet?, dictInsert, hp, List.find?, Ne.symm h]
    · by_cases hp' : p.1 = k'
      · simp [dictGet?, dictInsert, hp, List.find?, hp', h]
      · simpa [dictGet?, dictInsert, hp, List.find?, hp'] using ih

theorem mem_dictInsert {κ ν : Type} [DecidableEq κ] {m : List (κ × ν)} {k : κ}
    {v : ν} {p : κ × ν} (h : p ∈ dictInsert m k v) : p = (k, v) ∨ p ∈ m := by
  induction m with
  | nil => simpa [dictInsert] using h
  | cons q rest ih =>
    by_cases hq : q.1 = k
    · rcases (by simpa [dictInsert, hq] using h : p = (k, v) ∨ p ∈ rest) with h' | h'
      · exact Or.inl h'
      · exact Or.inr (List.mem_cons_of_mem _ h')
    · rcases (by simpa [dictInsert, hq] using h : p = q ∨ p ∈ dictInsert rest k v) with h' | h'
      · exact Or.inr (h' ▸ List.mem_cons_self _ _)
      · rcases ih h' with h'' | h''
        · exact Or.inl h''
        · exact Or.inr (List.mem_cons_of_mem _ h'')

theorem dictGet?_some_mem {κ ν : Type} [DecidableEq κ] {m : List (κ × ν)} {k : κ}
    {v : ν} (h : dictGet? m k = some v) : (k, v) ∈ m := by
  unfold dictGet? at h
  rcases Option.map_eq_some'.mp h with ⟨q, hq, hqv⟩
  have hk : q.1 = k := by simpa using List.find?_some hq
  have : q = (k, v) := by
    cases q
    simp_all
  exact this ▸ List.mem_of_find?_eq_some hq

theorem dictGet?_none_iff {κ ν : Type} [DecidableEq κ] {m : List (κ × ν)} {k : κ} :
    dictGet? m k = none ↔ ∀ p ∈ m, p.1 ≠ k := by
  simp [dictGet?, List.find?_eq_none]

/-! ## Case equations and simple state facts for `_word_to_id` -/

/-- The ID of the hash-fallback branch of `_word_to_id`. -/
def fallbackId (s : AlphaPackTokenizer) (w : String) : Nat :=
  ((s.hashFn w) % ((s.vocab_size : Int) - 5)).toNat + 5

theorem wordToId_found {s : AlphaPackTokenizer} {w : String} {tid : Nat}
    (h : dictGet? s.word_to_id w = some tid) : wordToId s w = (tid, s) := by
  simp [wordToId, h]

theorem wordToId_seq {s : AlphaPackTokenizer} {w : String}
    (h : dictGet? s.word_to_id w = none) (hc : s.next_id < s.vocab_size) :
    wordToId s w
      = (s.next_id,
         { s with next_id := s.next_id + 1
                  word_to_id := dictInsert s.word_to_id w s.next_id
                  id_to_word := dictInsert s.id_to_word s.next_id w }) := by
  simp [wordToId, h, hc]

theorem wordToId_fallback {s : AlphaPackTokenizer} {w : String}
    (h : dictGet? s.word_to_id w = none) (hc : ¬ s.next_id < s.vocab_size) :
    wordToId s w
      = (fallbackId s w,
         { s with word_to_id := dictInsert s.word_to_id w (fallbackId s w)
                  id_to_word := dictInsert s.id_to_word (fallbackId s w) w }) := by
  simp [wordToId, fallbackId, h, hc]

theorem wordToId_vocab_size (s : AlphaPackTokenizer) (w : String) :
    (wordToId s w).2.vocab_size = s.vocab_size := by
  rcases h : dictGet? s.word_to_id w with _ | tid
  · by_cases hc : s.next_id < s.vocab_size
    · simp [wordToId_seq h hc]
    · simp [wordToId_fallback h hc]
  · simp [wordToId_found h]

theorem wordToId_next_id_le (s : AlphaPackTokenizer) (w : String) :
    s.next_id ≤ (wordToId s w).2.next_id := by
  rcases h : dictGet? s.word_to_id w with _ | tid
  · by_cases hc : s.next_id < s.vocab_size
    · simp [wordToId_seq h hc]
    · simp [wordToId_fallback h hc]
  · simp [wordToId_found h]

theorem applyWords_nil (s : AlphaPackTokenizer) : applyWords s [] = s := rfl

theorem applyWords_cons (s : AlphaPackTokenizer) (w : String) (ws : List String) :
    applyWords s (w :: ws) = applyWords (wordToId s w).2 ws := rfl

theorem applyWords_vocab_size (ws : List String) (s : AlphaPackTokenizer) :
    (applyWords s ws).vocab_size = s.vocab_size := by
  induction ws generalizing s with
  | nil => rfl
  | cons w ws ih => rw [applyWords_cons, ih, wordToId_vocab_size]

theorem applyWords_next_id_le (ws : List String) (s : AlphaPackTokenizer) :
    s.next_id ≤ (applyWords s ws).next_id := by
  induction ws generalizing s with
  | nil => exact Nat.le_refl _
  | cons w ws ih =>
    rw [applyWords_cons]
    exact Nat.le_trans (wordToId_next_id_le s w) (ih _)

theorem encodeIds_length (ws : List String) (s : AlphaPackTokenizer) :
    (encodeIds s ws).1.length = ws.length := by
  induction ws generalizing s with
  | nil => rfl
  | cons w ws ih => simp [encodeIds, ih]

/-! ## Claims C1, C5, C6: encode shape -/

/-- Claim C1: for every text `t` and every `max_length = L`,
`encode(t, max_length=L, padding='max_length')['input_ids']` has length
exactly `L` — the truncation branch cuts to `L` and the padding branch
fills to `L`. -/
theorem encode_input_ids_length (s : AlphaPackTokenizer) (t : String) (L : Nat) :
    ((encode s t L (some ("max_length"))).1).length = L := by
  unfold encode
  rcases hE : encodeIds s (tokenize t) with ⟨ids0, s1⟩
  by_cases hlen : L < ids0.length + 1
  · simp [hE, hlen]
    omega
  · simp [hE, hlen]
    omega

/-- Claim C5: when the segmentation of `t` has `k` tokens and `k + 1 ≤ L`,
the padded encoding is the `k` token IDs in order, then `EOS` (ID 1), then
exactly `L - k - 1` `PAD`s (ID 0); in particular empty text encodes to
`EOS` followed by `L - 1` `PAD`s. -/
theorem encode_padding_branch :
    (∀ (s : AlphaPackTokenizer) (t : String) (L : Nat),
      (tokenize t).length + 1 ≤ L →
      (encode s t L (some ("max_length"))).1
        = (encodeIds s (tokenize t)).1
            ++ eos_token_id
                :: List.replicate (L - ((tokenize t).length + 1)) pad_token_id)
    ∧ (∀ (s : AlphaPackTokenizer) (L : Nat),
      1 ≤ L →
      (encode s ("") L (some ("max_length"))).1
        = eos_token_id :: List.replicate (L - 1) pad_token_id) := by
  constructor
  · intro s t L h
    unfold encode
    rcases hE : encodeIds s (tokenize t) with ⟨ids0, s1⟩
    have hlen : ids0.length = (tokenize t).length := by
      have := encodeIds_length (tokenize t) s
      rw [hE] at this
      exact this
    have hnot : ¬ L < ids0.length + 1 := by omega
    have hnot2 : ¬ L < (tokenize t).length + 1 := by omega
    simp [hE, hnot, hnot2, hlen]
  · intro s L h
    unfold encode
    have hE : encodeIds s (tokenize ("")) = ([], s) := rfl
    simp [hE]
    intro h0
    exact absurd h0 (by omega)

/-- Witness for `encode_padding_branch` at `t = "hi there"` (2 tokens),
`L = 6`, on a fresh tokenizer. -/
theorem encode_padding_branch_witness :
    (tokenize ("hi there")).length + 1 ≤ 6
    ∧ (encode (initTok 60000 (fun _ => 0)) ("hi there") 6 (some ("max_length"))).1
        = (encodeIds (initTok 60000 (fun _ => 0)) (tokenize ("hi there"))).1
            ++ eos_token_id
                :: List.replicate (6 - ((tokenize ("hi there")).length + 1)) pad_token_id :=
  ⟨by decide, encode_padding_branch.1 (initTok 60000 (fun _ => 0)) ("hi there") 6 (by decide)⟩

/-- Claim C6: when the segmentation of `t` has `k` tokens with
`k + 1 > max_length`, `encode` returns exactly the first `max_length` IDs
of the pre-truncation sequence — equivalently of the token IDs alone, the
appended `EOS` being cut off — with no padding, for every `padding`
argument; concretely, the fresh-tokenizer encoding of
`"one two three four"` at `max_length = 3` is `[5, 6, 7]`, the IDs
assigned to `"one"`, `"two"`, `"three"`, with `EOS` and `"four"`
dropped. -/
theorem encode_truncation :
    (∀ (s : AlphaPackTokenizer) (t : String) (L : Nat) (p : Option String),
      L < (tokenize t).length + 1 →
      (encode s t L p).1 = ((encodeIds s (tokenize t)).1 ++ [eos_token_id]).take L
      ∧ (encode s t L p).1 = ((encodeIds s (tokenize t)).1).take L)
    ∧ ((encode (initTok 60000 (fun _ => 0)) ("one two three four") 3
          (some ("max_length"))).1 = [5, 6, 7]
      ∧ dictGet? ((encode (initTok 60000 (fun _ => 0)) ("one two three four") 3
          (some ("max_length"))).2).word_to_id ("one") = some 5
      ∧ dictGet? ((encode (initTok 60000 (fun _ => 0)) ("one two three four") 3
          (some ("max_length"))).2).word_to_id ("two") = some 6
      ∧ dictGet? ((encode (initTok 60000 (fun _ => 0)) ("one two three four") 3
          (some ("max_length"))).2).word_to_id ("three") = some 7) := by
  constructor
  · intro s t L p h
    unfold encode
    rcases hE : encodeIds s (tokenize t) with ⟨ids0, s1⟩
    have hlen : ids0.length = (tokenize t).length := by
      have := encodeIds_length (tokenize t) s
      rw [hE] at this
      exact this
    have hpos : L < ids0.length + 1 := by omega
    refine ⟨by simp [hE, hpos], ?_⟩
    simp only [hE]
    rw [if_pos (by simpa using hpos)]
    exact List.take_eq_left_iff.mpr (Or.inr (by omega))
  · exact ⟨by decide, by decide, by decide, by decide⟩

/-- Witness for `encode_truncation` at the claim's own concrete input,
with `padding = None` to exhibit that no padding happens. -/
theorem encode_truncation_witness :
    3 < (tokenize ("one two three four")).length + 1
    ∧ (encode (initTok 60000 (fun _ => 0)) ("one two three four") 3 none).1
        = ((encodeIds (initTok 60000 (fun _ => 0))
            (tokenize ("one two three four"))).1).take 3 :=
  ⟨by decide,
   (encode_truncation.1 (initTok 60000 (fun _ => 0)) ("one two three four") 3 none
     (by decide)).2⟩

/-! ## Claims C7, C8: decode -/

theorem intercalate_singleton (x : String) : " ".intercalate [x] = x := rfl

theorem decodeWords_append_eos (s : AlphaPackTokenizer) (skip : Bool)
    (l1 l2 : List Int) (h : (1 : Int) ∉ l1) :
    decodeWords s skip (l1 ++ 1 :: l2) = decodeWords s skip l1 := by
  induction l1 with
  | nil => simp [decodeWords, eos_token_id]
  | cons a l1 ih =>
    have ha : a ≠ 1 := fun h' => h (h' ▸ List.mem_cons_self _ _)
    have h1 : (1 : Int) ∉ l1 := fun hm => h (List.mem_cons_of_mem _ hm)
    simp [decodeWords, eos_token_id, ha, ih h1]

/-- Claim C7: `decode` processes IDs in order and stops entirely at the
first `EOS` (ID 1), for both values of `skip_special_tokens`: IDs at or
after the first `EOS` never contribute.  Concretely, with `"hi" ↦ 5` and
`"there" ↦ 6`, `decode([5, EOS, 6])` is `"hi"` only. -/
theorem decode_eos_stop :
    (∀ (s : AlphaPackTokenizer) (skip : Bool) (l1 l2 : List Int),
      (1 : Int) ∉ l1 → decode s (l1 ++ 1 :: l2) skip = decode s l1 skip)
    ∧ (decode (applyWords (initTok 60000 (fun _ => 0)) ["hi", "there"]) [5, 1, 6] true
        = "hi"
      ∧ dictGet? (applyWords (initTok 60000 (fun _ => 0))
          ["hi", "there"]).word_to_id ("hi") = some 5
      ∧ dictGet? (applyWords (initTok 60000 (fun _ => 0))
          ["hi", "there"]).word_to_id ("there") = some 6) := by
  refine ⟨?_, by decide, by decide, by decide⟩
  intro s skip l1 l2 h
  unfold decode
  rw [decodeWords_append_eos s skip l1 l2 h]

/-- Witness for `decode_eos_stop`: `[5] ++ EOS :: [6]` decodes like
`[5]`. -/
theorem decode_eos_stop_witness :
    (1 : Int) ∉ ([5] : List Int)
    ∧ decode (initTok 60000 (fun _ => 0)) ([5] ++ 1 :: [6]) true
        = decode (initTok 60000 (fun _ => 0)) [5] true :=
  ⟨by decide, decode_eos_stop.1 (initTok 60000 (fun _ => 0)) true [5] [6] (by decide)⟩

/-- Claim C8: `decode` totalizes unknown IDs: an ID that is not a key of
`id_to_word`, is not `EOS`, and is not filtered as a special token, is
rendered as the visible placeholder `"[" ++ id ++ "]"` embedding the raw
ID, and decoding always returns a string (it is a total function). -/
theorem decode_unknown_placeholder :
    ∀ (s : AlphaPackTokenizer) (skip : Bool) (tid : Int) (rest : List Int),
      tid ≠ 1 →
      (skip = true → tid ∉ ([0, 2, 3, 4] : List Int)) →
      List.find? (fun p => ((p.1 : Nat) : Int) = tid) s.id_to_word = none →
      decodeWords s skip (tid :: rest)
        = ("[" ++ toString tid ++ "]") :: decodeWords s skip rest
      ∧ decode s [tid] skip = "[" ++ toString tid ++ "]" := by
  intro s skip tid rest hne hsk hfind
  have hcond : skip = true → ¬tid = 0 ∧ ¬tid = 2 ∧ ¬tid = 3 ∧ ¬tid = 4 :=
    fun h => by simpa using hsk h
  constructor
  · simp [decodeWords, eos_token_id, hne, hfind]
    exact hcond
  · unfold decode
    rw [show decodeWords s skip [tid] = [("[" ++ toString tid ++ "]")] from by
      simp [decodeWords, eos_token_id, hne, hfind]
      exact hcond]
    exact intercalate_singleton _

/-- Witness for `decode_unknown_placeholder`: ID 99 on a fresh tokenizer
decodes to the placeholder `"[99]"`. -/
theorem decode_unknown_placeholder_witness :
    ((99 : Int) ≠ 1 ∧ (99 : Int) ∉ ([0, 2, 3, 4] : List Int))
    ∧ decode (initTok 60000 (fun _ => 0)) [99] true = "[" ++ toString (99 : Int) ++ "]" :=
  ⟨⟨by decide, by decide⟩,
   (decode_unknown_placeholder (initTok 60000 (fun _ => 0)) true 99 []
     (by decide) (fun _ => by decide) (by decide)).2⟩

/-! ## Claim C2: failure behavior of `load_vocab` -/

/-- Claim C2 (amended): a `load_vocab` failure in the `open`/`json.load`
step or a missing `'word_to_id'` key raises before any field assignment
and leaves the state unchanged; but a parsed file that has `'word_to_id'`
and lacks `'id_to_word'` — or whose `id_to_word` has a non-integer key —
raises only after `self.word_to_id` has already been overwritten, leaving
the two maps out of sync.  The claim's blanket "state left unchanged on
any structurally invalid input" does not hold (see
`load_vocab_overwrite_cex`). -/
theorem load_vocab_failure_behavior :
    (∀ s : AlphaPackTokenizer, load_vocab none s = (s, some LoadError.readError))
    ∧ (∀ (f : VocabFile) (s : AlphaPackTokenizer), f.word_to_id = none →
        load_vocab (some f) s = (s, some LoadError.missingWordToId))
    ∧ (∀ (f : VocabFile) (s : AlphaPackTokenizer) (w : List (String × Nat)),
        f.word_to_id = some w → f.id_to_word = none →
        load_vocab (some f) s
          = ({ s with word_to_id := w }, some LoadError.missingIdToWord))
    ∧ (∀ (f : VocabFile) (s : AlphaPackTokenizer) (w : List (String × Nat))
        (m : List (String × String)),
        f.word_to_id = some w → f.id_to_word = some m → parseIdMap m = none →
        load_vocab (some f) s
          = ({ s with word_to_id := w }, some LoadError.badIdKey)) := by
  refine ⟨fun s => rfl, fun f s h1 => ?_, fun f s w h1 h2 => ?_, fun f s w m h1 h2 h3 => ?_⟩
  · simp [load_vocab, h1]
  · simp [load_vocab, h1, h2]
  · simp [load_vocab, h1, h2, h3]

/-- A structurally invalid snapshot: the JSON object parses and holds a
`word_to_id` mapping but no `id_to_word` key. -/
def badFile : VocabFile :=
  { word_to_id := some [("x", 9)]
    id_to_word := none
    vocab_size := none
    next_id := none }

/-- Counterexample to claim C2 as stated: a structurally invalid snapshot
(`word_to_id` present, `id_to_word` absent) makes `load_vocab` fail, yet
`word_to_id` has already been overwritten while `id_to_word` kept its old
value — the vocabulary state is not left as it was, and the two maps are
out of sync. -/
theorem load_vocab_overwrite_cex :
    (load_vocab (some badFile) (initTok 60000 (fun _ => 0))).2
      = some LoadError.missingIdToWord
    ∧ (load_vocab (some badFile) (initTok 60000 (fun _ => 0))).1.word_to_id
      ≠ (initTok 60000 (fun _ => 0)).word_to_id
    ∧ (load_vocab (some badFile) (initTok 60000 (fun _ => 0))).1.id_to_word
      = (initTok 60000 (fun _ => 0)).id_to_word :=
  ⟨rfl, by decide, rfl⟩

/-- Witness for `load_vocab_failure_behavior`: the missing-`id_to_word`
conjunct applied at a concrete file and a fresh tokenizer. -/
theorem load_vocab_failure_behavior_witness :
    badFile.word_to_id = some [("x", 9)]
    ∧ load_vocab (some badFile) (initTok 7 (fun _ => 0))
      = ({ initTok 7 (fun _ => 0) with word_to_id := [("x", 9)] },
         some LoadError.missingIdToWord) :=
  ⟨rfl,
   load_vocab_failure_behavior.2.2.1 badFile
     (initTok 7 (fun _ => 0)) [("x", 9)] rfl rfl⟩

/-! ## Claim C4: save/load round trip -/

theorem digitVal?_digitChar {n : Nat} (h : n < 10) :
    digitVal? (Nat.digitChar n) = some n := by
  interval_cases n <;> decide

theorem parseNatCore?_append (l1 l2 : List Char) (v : Nat) :
    parseNatCore? (l1 ++ l2) v
      = (parseNatCore? l1 v).bind (fun v2 => parseNatCore? l2 v2) := by
  induction l1 generalizing v with
  | nil => simp [parseNatCore?]
  | cons c l1 ih =>
    simp only [List.cons_append, parseNatCore?]
    cases digitVal? c with
    | none => rfl
    | some d => exact ih _

theorem natToChars_ne_nil (n : Nat) : natToChars n ≠ [] := by
  rw [natToChars]
  split <;> simp

theorem parseNatCore?_natToChars (n : Nat) :
    ∀ v, parseNatCore? (natToChars n) v
      = some (v * 10 ^ (natToChars n).length + n) := by
  induction n using Nat.strong_induction_on with
  | _ n ih =>
    intro v
    rw [natToChars]
    split
    · rename_i h
      simp [parseNatCore?, digitVal?_digitChar h]
    · rename_i h
      rw [parseNatCore?_append, ih (n / 10) (Nat.div_lt_self (by omega) (by omega))]
      simp only [Option.some_bind, parseNatCore?,
        digitVal?_digitChar (Nat.mod_lt _ (by omega) : n % 10 < 10),
        List.length_append, List.length_singleton]
      congr 1
      have hdm : 10 * (n / 10) + n % 10 = n := Nat.div_add_mod n 10
      have hr : (v * 10 ^ (natToChars (n / 10)).length + n / 10) * 10 + n % 10
          = v * 10 ^ ((natToChars (n / 10)).length + 1)
            + (10 * (n / 10) + n % 10) := by ring
      rw [hr, hdm]

theorem parseNat?_strOfNat (n : Nat) : parseNat? (strOfNat n) = some n := by
  have hcs := parseNatCore?_natToChars n 0
  simp only [Nat.zero_mul, Nat.zero_add] at hcs
  unfold parseNat? strOfNat
  rcases h : natToChars n with _ | ⟨c, cs⟩
  · exact absurd h (natToChars_ne_nil n)
  · rw [h] at hcs
    simpa using hcs

theorem parseIdMap_map_strOfNat (l : List (Nat × String)) :
    parseIdMap (l.map (fun p => (strOfNat p.1, p.2))) = some l := by
  induction l with
  | nil => rfl
  | cons p l ih => simp [parseIdMap, parseNat?_strOfNat, ih]

/-- Claim C4: for every vocabulary state, `save_vocab` followed by
`load_vocab` on a freshly constructed tokenizer reproduces `word_to_id`,
`id_to_word`, `vocab_size` and `next_id` exactly (the `id_to_word` keys
are written as strings and parsed back to integers), and the load
succeeds. -/
theorem save_load_roundtrip (s : AlphaPackTokenizer) (vs : Nat) (h : String → Int) :
    load_vocab (some (save_vocab s)) (initTok vs h)
      = ({ word_to_id := s.word_to_id, id_to_word := s.id_to_word,
           vocab_size := s.vocab_size, next_id := s.next_id, hashFn := h }, none) := by
  unfold load_vocab save_vocab
  simp [parseIdMap_map_strOfNat, initTok]

/-! ## Claim C3: the two maps as inverses -/

/-- One direction of the spec's invariant: every `word_to_id` entry is
reflected in `id_to_word`. -/
def Inv1 (s : AlphaPackTokenizer) : Prop :=
  ∀ p ∈ s.word_to_id, dictGet? s.id_to_word p.2 = some p.1

/-- The other direction: every `id_to_word` entry is reflected in
`word_to_id`. -/
def Inv2 (s : AlphaPackTokenizer) : Prop :=
  ∀ p ∈ s.id_to_word, dictGet? s.word_to_id p.2 = some p.1

/-- All keys of `id_to_word` lie below `next_id` (true until the first
hash fallback). -/
def IdsBelowNext (s : AlphaPackTokenizer) : Prop :=
  ∀ p ∈ s.id_to_word, p.1 < s.next_id

theorem Inv2_insert {w2i : List (String × Nat)} {i2w : List (Nat × String)}
    {w : String} {tid : Nat}
    (h : ∀ p ∈ i2w, dictGet? w2i p.2 = some p.1)
    (hw : dictGet? w2i w = none) :
    ∀ p ∈ dictInsert i2w tid w, dictGet? (dictInsert w2i w tid) p.2 = some p.1 := by
  intro p hp
  rcases mem_dictInsert hp with rfl | hpm
  · exact dictGet?_insert_self _ _ _
  · by_cases hpw : p.2 = w
    · exact absurd (hpw ▸ h p hpm) (by simp [hw])
    · rw [dictGet?_insert_ne _ _ _ _ hpw]
      exact h p hpm

theorem Inv1_insert {w2i : List (String × Nat)} {i2w : List (Nat × String)}
    {w : String} {tid : Nat}
    (h : ∀ p ∈ w2i, dictGet? i2w p.2 = some p.1)
    (htid : dictGet? i2w tid = none) :
    ∀ p ∈ dictInsert w2i w tid, dictGet? (dictInsert i2w tid w) p.2 = some p.1 := by
  intro p hp
  rcases mem_dictInsert hp with rfl | hpm
  · exact dictGet?_insert_self _ _ _
  · by_cases hpt : p.2 = tid
    · exact absurd (hpt ▸ h p hpm) (by simp [htid])
    · rw [dictGet?_insert_ne _ _ _ _ hpt]
      exact h p hpm

theorem wordToId_preserves_Inv2 {s : AlphaPackTokenizer} (w : String)
    (h : Inv2 s) : Inv2 (wordToId s w).2 := by
  rcases hg : dictGet? s.word_to_id w with _ | tid
  · by_cases hc : s.next_id < s.vocab_size
    · rw [wordToId_seq hg hc]
      exact Inv2_insert h hg
    · rw [wordToId_fallback hg hc]
      exact Inv2_insert h hg
  · rw [wordToId_found hg]
    exact h

theorem wordToId_preserves_full {s : AlphaPackTokenizer} (w : String)
    (h1 : Inv1 s) (h2 : Inv2 s) (h3 : IdsBelowNext s) (hc : s.next_id < s.vocab_size) :
    Inv1 (wordToId s w).2 ∧ Inv2 (wordToId s w).2 ∧ IdsBelowNext (wordToId s w).2 := by
  rcases hg : dictGet? s.word_to_id w with _ | tid
  · rw [wordToId_seq hg hc]
    have htid : dictGet? s.id_to_word s.next_id = none :=
      dictGet?_none_iff.mpr (fun p hp => Nat.ne_of_lt (h3 p hp))
    refine ⟨Inv1_insert h1 htid, Inv2_insert h2 hg, ?_⟩
    intro p hp
    rcases mem_dictInsert hp with rfl | hpm
    · exact Nat.lt_succ_self _
    · exact Nat.lt_succ_of_lt (h3 p hpm)
  · rw [wordToId_found hg]
    exact ⟨h1, h2, h3⟩

theorem applyWords_Inv2 (ws : List String) (s : AlphaPackTokenizer) (h : Inv2 s) :
    Inv2 (applyWords s ws) := by
  induction ws generalizing s with
  | nil => exact h
  | cons w ws ih => exact ih _ (wordToId_preserves_Inv2 w h)

theorem applyWords_full (ws : List String) (s : AlphaPackTokenizer)
    (h1 : Inv1 s) (h2 : Inv2 s) (h3 : IdsBelowNext s)
    (hfin : (applyWords s ws).next_id < (applyWords s ws).vocab_size) :
    Inv1 (applyWords s ws) ∧ Inv2 (applyWords s ws) ∧ IdsBelowNext (applyWords s ws) := by
  induction ws generalizing s with
  | nil => exact ⟨h1, h2, h3⟩
  | cons w ws ih =>
    rw [applyWords_cons] at hfin ⊢
    by_cases hc : s.next_id < s.vocab_size
    · obtain ⟨a, b, c⟩ := wordToId_preserves_full w h1 h2 h3 hc
      exact ih _ a b c hfin
    · rcases hg : dictGet? s.word_to_id w with _ | tid
      · exfalso
        rw [wordToId_fallback hg hc] at hfin
        dsimp only at hfin
        have hle := applyWords_next_id_le ws
          { s with word_to_id := dictInsert s.word_to_id w (fallbackId s w)
                   id_to_word := dictInsert s.id_to_word (fallbackId s w) w }
        have hvs := applyWords_vocab_size ws
          { s with word_to_id := dictInsert s.word_to_id w (fallbackId s w)
                   id_to_word := dictInsert s.id_to_word (fallbackId s w) w }
        simp only at hle hvs
        omega
      · rw [wordToId_found hg] at hfin ⊢
        exact ih _ h1 h2 h3 hfin

theorem initTok_Inv1 (vs : Nat) (hf : String → Int) : Inv1 (initTok vs hf) := by
  intro p hp
  simp [initTok, special_tokens] at hp
  rcases hp with rfl | rfl | rfl | rfl | rfl <;> rfl

theorem initTok_Inv2 (vs : Nat) (hf : String → Int) : Inv2 (initTok vs hf) := by
  intro p hp
  simp [initTok, special_tokens] at hp
  rcases hp with rfl | rfl | rfl | rfl | rfl <;> rfl

theorem initTok_IdsBelowNext (vs : Nat) (hf : String → Int) :
    IdsBelowNext (initTok vs hf) := by
  intro p hp
  simp [initTok, special_tokens] at hp
  rcases hp with rfl | rfl | rfl | rfl | rfl <;> simp [initTok, special_tokens]

/-- Claim C3 (amended): in every state reachable from construction by
look-ups, the `id_to_word → word_to_id` direction of the invariant holds
unconditionally; and as long as `next_id` is still below `vocab_size` (no
hash fallback has ever fired) the two maps are exact inverses in both
directions.  The claim's unconditional two-sided invariant "including
calls made after `next_id` has reached `vocab_size`" is false: a
hash-fallback collision overwrites `id_to_word` and strands the colliding
`word_to_id` entry (see `hash_collision_breaks_inverse_cex`). -/
theorem vocab_maps_inverse :
    (∀ (vs : Nat) (hf : String → Int) (ws : List String),
      Inv2 (applyWords (initTok vs hf) ws))
    ∧ (∀ (vs : Nat) (hf : String → Int) (ws : List String),
      (applyWords (initTok vs hf) ws).next_id
          < (applyWords (initTok vs hf) ws).vocab_size →
      Inv1 (applyWords (initTok vs hf) ws) ∧ Inv2 (applyWords (initTok vs hf) ws)) := by
  constructor
  · intro vs hf ws
    exact applyWords_Inv2 ws _ (initTok_Inv2 vs hf)
  · intro vs hf ws hfin
    obtain ⟨a, b, _⟩ := applyWords_full ws _ (initTok_Inv1 vs hf) (initTok_Inv2 vs hf)
      (initTok_IdsBelowNext vs hf) hfin
    exact ⟨a, b⟩

/-- Witness for `vocab_maps_inverse`: after looking up one word on a
fresh `vocab_size = 60000` tokenizer, capacity is not reached and both
directions hold. -/
theorem vocab_maps_inverse_witness :
    (applyWords (initTok 60000 (fun _ => 0)) ["a"]).next_id
        < (applyWords (initTok 60000 (fun _ => 0)) ["a"]).vocab_size
    ∧ (Inv1 (applyWords (initTok 60000 (fun _ => 0)) ["a"])
      ∧ Inv2 (applyWords (initTok 60000 (fun _ => 0)) ["a"])) :=
  ⟨by decide, vocab_maps_inverse.2 60000 (fun _ => 0) ["a"] (by decide)⟩

/-- Counterexample to claim C3 as stated: with `vocab_size = 6`, looking
up `"a"` fills the vocabulary (ID 5) and looking up `"b"` takes the hash
fallback, whose ID is `hash("b") % 1 + 5 = 5` for every hash value; the
collision overwrites `id_to_word[5]` with `"b"` while `word_to_id["a"]`
still holds 5 — the maps are no longer inverses in a reachable state. -/
theorem hash_collision_breaks_inverse_cex :
    dictGet? (applyWords (initTok 6 (fun _ => 0)) ["a", "b"]).word_to_id ("a") = some 5
    ∧ dictGet? (applyWords (initTok 6 (fun _ => 0)) ["a", "b"]).id_to_word 5 = some ("b")
    ∧ ¬ Inv1 (applyWords (initTok 6 (fun _ => 0)) ["a", "b"]) :=
  ⟨by decide, by decide,
   fun h => absurd (h ("a", 5) (by decide)) (by decide)⟩

/-! ## Claim C10: ID ranges of the look-up -/

/-- All values of `word_to_id` lie below `vocab_size`. -/
def ValsBelow (s : AlphaPackTokenizer) : Prop :=
  ∀ p ∈ s.word_to_id, p.2 < s.vocab_size

theorem fallbackId_ge : 5 ≤ fallbackId s w := Nat.le_add_left 5 _

theorem fallbackId_lt {s : AlphaPackTokenizer} (w : String)
    (h5 : 5 < s.vocab_size) : fallbackId s w < s.vocab_size := by
  unfold fallbackId
  have hm : (0 : Int) < (s.vocab_size : Int) - 5 := by
    have : (5 : Int) < (s.vocab_size : Int) := by exact_mod_cast h5
    omega
  have h1 : s.hashFn w % ((s.vocab_size : Int) - 5) < (s.vocab_size : Int) - 5 :=
    Int.emod_lt_of_pos _ hm
  have h2 : 0 ≤ s.hashFn w % ((s.vocab_size : Int) - 5) :=
    Int.emod_nonneg _ (by omega)
  omega

theorem wordToId_preserves_ValsBelow {s : AlphaPackTokenizer} (w : String)
    (h : ValsBelow s) (h5 : 5 < s.vocab_size) : ValsBelow (wordToId s w).2 := by
  rcases hg : dictGet? s.word_to_id w with _ | tid
  · by_cases hc : s.next_id < s.vocab_size
    · rw [wordToId_seq hg hc]
      intro p hp
      rcases mem_dictInsert hp with rfl | hpm
      · exact hc
      · exact h p hpm
    · rw [wordToId_fallback hg hc]
      intro p hp
      rcases mem_dictInsert hp with rfl | hpm
      · exact fallbackId_lt w h5
      · exact h p hpm
  · rw [wordToId_found hg]
    exact h

theorem applyWords_ValsBelow (ws : List String) (s : AlphaPackTokenizer)
    (h : ValsBelow s) (h5 : 5 < s.vocab_size) : ValsBelow (applyWords s ws) := by
  induction ws generalizing s with
  | nil => exact h
  | cons w ws ih =>
    rw [applyWords_cons]
    exact ih _ (wordToId_preserves_ValsBelow w h h5)
      (by rw [wordToId_vocab_size]; exact h5)

theorem initTok_ValsBelow (vs : Nat) (hf : String → Int) (h5 : 5 < vs) :
    ValsBelow (initTok vs hf) := by
  intro p hp
  simp [initTok, special_tokens] at hp
  rcases hp with rfl | rfl | rfl | rfl | rfl <;> simp [initTok] <;> omega

theorem wordToId_id_to_word_small {s : AlphaPackTokenizer} (w : String)
    (h5n : 5 ≤ s.next_id) (i : Nat) (hi : i < 5) :
    dictGet? (wordToId s w).2.id_to_word i = dictGet? s.id_to_word i := by
  rcases hg : dictGet? s.word_to_id w with _ | tid
  · by_cases hc : s.next_id < s.vocab_size
    · rw [wordToId_seq hg hc]
      exact dictGet?_insert_ne _ _ _ _ (by omega)
    · rw [wordToId_fallback hg hc]
      exact dictGet?_insert_ne _ _ _ _
        (by have := fallbackId_ge (s := s) (w := w); omega)
  · rw [wordToId_found hg]

theorem applyWords_id_to_word_small (ws : List String) (s : AlphaPackTokenizer)
    (h5n : 5 ≤ s.next_id) (i : Nat) (hi : i < 5) :
    dictGet? (applyWords s ws).id_to_word i = dictGet? s.id_to_word i := by
  induction ws generalizing s with
  | nil => rfl
  | cons w ws ih =>
    rw [applyWords_cons, ih _ (Nat.le_trans h5n (wordToId_next_id_le s w)) ,
      wordToId_id_to_word_small w h5n i hi]

/-- Claim C10: provided `vocab_size > 5`, in every reachable state the
look-up returns an ID in `[0, vocab_size)`; a hash-fallback ID (assigned
once `next_id` has reached `vocab_size`) lies in `[5, vocab_size)`; and
the look-up never overwrites a special-token entry: `id_to_word` at the
keys `0..4` is exactly as at construction, before and after any
look-up. -/
theorem lookup_id_bounds :
    ∀ (vs : Nat) (hf : String → Int) (ws : List String) (w : String)
      (s : AlphaPackTokenizer),
      s = applyWords (initTok vs hf) ws → 5 < vs →
      ((wordToId s w).1 < vs
      ∧ (dictGet? s.word_to_id w = none → ¬ s.next_id < s.vocab_size →
          5 ≤ (wordToId s w).1 ∧ (wordToId s w).1 < vs)
      ∧ (∀ i : Nat, i < 5 →
          dictGet? (wordToId s w).2.id_to_word i
            = dictGet? (initTok vs hf).id_to_word i)) := by
  intro vs hf ws w s hs h5
  have hvs : s.vocab_size = vs := by rw [hs, applyWords_vocab_size]; rfl
  have hvb : ValsBelow s := by
    rw [hs]
    exact applyWords_ValsBelow ws _ (initTok_ValsBelow vs hf h5) h5
  have h5n : 5 ≤ s.next_id := by
    rw [hs]
    exact applyWords_next_id_le ws (initTok vs hf)
  refine ⟨?_, ?_, ?_⟩
  · rcases hg : dictGet? s.word_to_id w with _ | tid
    · by_cases hc : s.next_id < s.vocab_size
      · rw [wordToId_seq hg hc]
        omega
      · rw [wordToId_fallback hg hc]
        have := fallbackId_lt w (s := s) (by omega)
        simpa [hvs] using (by omega : fallbackId s w < vs)
    · rw [wordToId_found hg]
      have := hvb (w, tid) (dictGet?_some_mem hg)
      simpa [hvs] using (by omega : tid < vs)
  · intro hg hc
    rw [wordToId_fallback hg hc]
    have := fallbackId_lt w (s := s) (by omega)
    exact ⟨fallbackId_ge, by omega⟩
  · intro i hi
    rw [wordToId_id_to_word_small w h5n i hi, hs,
      applyWords_id_to_word_small ws _ (by simp [initTok, special_tokens]) i hi]

/-- Witness for `lookup_id_bounds`: a fresh `vocab_size = 60000`
tokenizer, the empty look-up history, and the word `"hi"`. -/
theorem lookup_id_bounds_witness :
    5 < 60000
    ∧ (wordToId (applyWords (initTok 60000 (fun _ => 0)) []) ("hi")).1 < 60000
    ∧ (0 < 5
      ∧ dictGet? (wordToId (applyWords (initTok 60000 (fun _ => 0)) []) ("hi")).2.id_to_word 0
          = dictGet? (initTok 60000 (fun _ => 0)).id_to_word 0) :=
  ⟨by decide,
   (lookup_id_bounds 60000 (fun _ => 0) [] ("hi") _ rfl (by decide)).1,
   by decide,
   (lookup_id_bounds 60000 (fun _ => 0) [] ("hi") _ rfl (by decide)).2.2 0 (by decide)⟩

/-! ## Claim C9: delimiter behavior of the segmenter -/

theorem mk_ne_empty {cur : List Char} (h : cur ≠ []) : String.mk cur ≠ "" := by
  intro he
  apply h
  have hd : (String.mk cur).data = ("" : String).data := by rw [he]
  simpa using hd

theorem tokenizeLoop_no_empty (cs : List Char) : ∀ cur, "" ∉ tokenizeLoop cs cur := by
  induction cs with
  | nil =>
    intro cur
    by_cases hcur : cur = []
    · simp [tokenizeLoop, hcur]
    · simp [tokenizeLoop, hcur]
      exact fun he => mk_ne_empty hcur he.symm
  | cons c rest ih =>
    intro cur
    by_cases hsp : c = ' '
    · by_cases hcur : cur = []
      · simpa [tokenizeLoop, hsp, hcur] using ih []
      · simp [tokenizeLoop, hsp, hcur]
        exact ⟨fun he => mk_ne_empty hcur he.symm, ih []⟩
    · by_cases hpk : c ∈ noktalar
      · by_cases hcur : cur = []
        · simp [tokenizeLoop, hsp, hpk, hcur]
          exact ⟨fun he => mk_ne_empty (by simp) he.symm, ih []⟩
        · simp [tokenizeLoop, hsp, hpk, hcur]
          exact ⟨fun he => mk_ne_empty hcur he.symm,
            fun he => mk_ne_empty (by simp) he.symm, ih []⟩
      · simpa [tokenizeLoop, hsp, hpk] using ih (cur ++ [c])

/-- Claim C9 (the behavior line 45 evidently intends — as committed that
line is a Python `SyntaxError`, see the header note): every character of
the 30-character `noktalar` set acts as a single-character delimiter,
flushing the current buffer and emitting itself as a one-character token;
`segment("Hello, World!")` is `["hello", ",", "world", "!"]`; and the
segmenter never emits an empty token. -/
theorem tokenize_delimiters :
    tokenize ("Hello, World!") = ["hello", ",", "world", "!"]
    ∧ (∀ t : String, "" ∉ tokenize t)
    ∧ (∀ c ∈ noktalar, ∀ (rest cur : List Char),
        tokenizeLoop (c :: rest) cur
          = (if cur = [] then [] else [String.mk cur])
              ++ String.mk [c] :: tokenizeLoop rest []) := by
  refine ⟨by decide, ?_, ?_⟩
  · intro t
    exact tokenizeLoop_no_empty _ []
  · intro c hc rest cur
    have hsp : ¬ c = ' ' := by
      intro h
      rw [h] at hc
      exact absurd hc (by decide)
    simp [tokenizeLoop, hsp, hc]

/-- Witness for `tokenize_delimiters`: the comma delimiter applied to a
pending buffer `['h']`. -/
theorem tokenize_delimiters_witness :
    (',' ∈ noktalar)
    ∧ tokenizeLoop [','] ['h']
        = (if (['h'] : List Char) = [] then [] else [String.mk ['h']])
            ++ String.mk [','] :: tokenizeLoop [] [] :=
  ⟨by decide, tokenize_delimiters.2.2 ',' (by decide) [] ['h']⟩
